import Mathlib

/-
Verification of the measurement-and-synthesis core of go-wspr.

This file gives a shallow embedding, in Lean 4, of the numeric core of the
repository:

* `Support.ReduceObservation`  (src/src/support/observation.go) — the
  jitter-free reducer for double reads of a (high, low) counter pair;
* `Support.continuedFraction` and `Support.NearestFraction`
  (src/src/support/cf.go) — the bounded-denominator nearest-fraction solver;
* `Support.New` (src/src/support/observation.go) — the Si5351 synthesizer
  configuration solver;
* `Mtime.ReduceObservation` (src/src/wspr/mtime.go) — the local reducer used
  by MicroTime.

Modelling conventions:

* Go `uint64`/`uint32` values are modelled as `ℕ`.  In the operating ranges
  exercised by the program (inputs bounded by the 2^20 denominator cap and
  ratios scaled by 10^12) no intermediate value reaches 2^64, so wraparound
  never fires and plain natural arithmetic is the faithful model.
* Go `float64` values are modelled as `ℚ` with exact arithmetic.  Every
  concrete input used in a theorem below was chosen so that the float64
  computation in Go is exact (dyadic values well inside 53-bit precision),
  making the rational model and the float code agree there.
* Go `uint64(x)` conversion of a positive float is truncation toward zero,
  modelled as `Int.toNat ⌊x⌋`.
* The Go recursion in `continuedFraction` terminates because the second
  argument strictly decreases (`a % b < b`); the Lean embedding makes that
  explicit by structural recursion on a fuel bounded by `b`, which is enough
  fuel for every run (proved in `cfAux_congr` below).  `b = 0` would make the
  Go code divide by zero; the embedding returns `(0, 0)` there, a case that is
  unreachable under the `1 ≤ b` hypotheses used throughout.
* Go `ax := a - term*b` equals `a % b` on naturals, and is written `a % b`.
-/

namespace GoWspr

namespace Support

/-- Model of `support.ReduceObservation` (src/src/support/observation.go,
lines 33-50): reduce two reads of a (high, low) counter pair into one value,
choosing the high word that belongs with the first low read. -/
def ReduceObservation (scale th1 tl1 th2 tl2 : ℕ) : ℕ :=
  if th1 = th2 then
    th1 * scale + tl1
  else
    if tl1 < tl2 then
      th2 * scale + tl1
    else
      th1 * scale + tl1

/-- Fuelled body of `support.continuedFraction` (src/src/support/cf.go,
lines 74-92).  The fuel only bounds the recursion depth; `continuedFraction`
supplies fuel `b`, which always suffices because the second argument strictly
decreases.  Out-of-fuel and division-by-zero (a Go runtime panic) both return
the junk value `(0, 0)`, unreachable for `1 ≤ b`. -/
def cfAux : ℕ → ℕ → ℕ → ℕ → ℕ → ℕ → ℕ × ℕ
  | 0, _, _, _, _, _ => (0, 0)
  | fuel + 1, a, b, e, f, m =>
    if b = 0 then (0, 0)
    else
      let term := a / b
      let denom := f + term * e
      if m < denom then (1, 0)
      else if a % b = 0 then (term, 1)
      else
        let p := cfAux fuel b (a % b) denom e m
        (term * p.1 + p.2, p.1)

/-- Model of `support.continuedFraction` (src/src/support/cf.go, lines 74-92):
continued-fraction approximation of `a/b` with denominator-growth accumulators
`e`, `f` and denominator cap `m`. -/
def continuedFraction (a b e f m : ℕ) : ℕ × ℕ := cfAux b a b e f m

/-- Model of `support.NearestFraction` (src/src/support/cf.go, lines 48-52):
best-effort rational approximation `c/d` of `a/b` with `d` capped by
`max_denominator`, together with the signed error `a/b - c/d` (a float64 in
Go, exact rational here). -/
def NearestFraction (a b max_denominator : ℕ) : ℕ × ℕ × ℚ :=
  let p := continuedFraction a b 0 1 max_denominator
  (p.1, p.2, (a : ℚ) / (b : ℚ) - (p.1 : ℚ) / (p.2 : ℚ))

/-- Model of the `Si5351Config` struct (src/src/support/observation.go,
lines 75-79).  Frequencies and the error are float64 in Go, modelled as `ℚ`;
the chip parameters are uint32, modelled as `ℕ`. -/
structure Si5351Config where
  f0 : ℚ
  pll : ℚ
  f : ℚ
  a0 : ℕ
  b0 : ℕ
  c0 : ℕ
  a1 : ℕ
  b1 : ℕ
  c1 : ℕ
  r : ℕ
  eps : ℚ

/-- Model of `support.near` (src/src/support/observation.go, lines 162-164). -/
abbrev near (a b eps : ℚ) : Prop := |a - b| ≤ eps

/-- Model of the output-divider search loop in `New`
(src/src/support/observation.go, lines 142-145): starting from `r = 1`,
double `r` while `z / r > 2048 && r <= 128`.  The `r ≤ 128` conjunct stops
the loop after at most eight doublings, so the fuel `9` supplied at the call
site makes this an exact model of the Go loop. -/
def rloop (z : ℚ) : ℕ → ℕ → ℕ
  | 0, r => r
  | fuel + 1, r => if 2048 < z / (r : ℚ) ∧ r ≤ 128 then rloop z fuel (2 * r) else r

/-- The PLL frequency `New` actually uses, from the selection chain at
src/src/support/observation.go, lines 108-120: forced to `4f` above 150MHz,
to `6f` at or above 100MHz, defaulted from the band when the hint is zero,
otherwise the callers hint. -/
def chosenPll (pll f : ℚ) : ℚ :=
  if 150000000 < f then 4 * f
  else if 100000000 ≤ f then 6 * f
  else if pll = 0 then (if f < 5000000 then 600000000 else 800000000)
  else pll

/-- Body of `support.New` after the input guards and PLL selection
(src/src/support/observation.go, lines 121-159), with the chosen PLL
frequency already substituted.  Mirrors the Go source line by line:

* `z := pll / f0` with the `(15, 90)` window guards written exactly as the
  strict comparisons of lines 122 and 125;
* `uint64(z*1e12)` becomes `Int.toNat ⌊z * 10^12⌋`;
* the dividers are decomposed as `b / c`, `b % c`, `c` (lines 133-135);
* the Go code of line 155 tests `math.Abs(r.eps)/f > 1e-12` while `r.eps`
  still holds its zero value — `eps` is only assigned on line 158 — so the
  embedded test reads `|0| / f` exactly as the program computes it;
* the final `ok` value carries `f` recomputed on line 154 (note: not divided
  by `r`) and `eps = f - r.f` from line 158. -/
def newWithPll (f0 pll f : ℚ) : Except String Si5351Config :=
  let z := pll / f0
  if z < 15 then Except.error "Si5351Config: feedback ratio too small"
  else if 90 < z then Except.error "Si5351Config: feedback ratio too big"
  else
    let nf := NearestFraction (Int.toNat ⌊z * 1000000000000⌋) 1000000000000 (2 ^ 20)
    let a0 := nf.1 / nf.2.1
    let b0 := nf.1 % nf.2.1
    let c0 := nf.2.1
    let z2 := f0 * ((a0 : ℚ) + (b0 : ℚ) / (c0 : ℚ)) / f
    if ¬ near z2 4 (1 / 1000000000) ∧ ¬ near z2 6 (1 / 1000000000) ∧ z2 < 8 then
      Except.error "Si5351Config: output multi-synth ratio too small"
    else
      let r := rloop z2 9 1
      if 128 < r then
        Except.error "Si5351Config: output divider ratio too big, f_out too low"
      else
        let nf2 :=
          NearestFraction (Int.toNat ⌊z2 * 1000000000000 / (r : ℚ)⌋) 1000000000000 (2 ^ 20)
        let a1 := nf2.1 / nf2.2.1
        let b1 := nf2.1 % nf2.2.1
        let c1 := nf2.2.1
        let fAch := f0 * ((a0 : ℚ) + (b0 : ℚ) / (c0 : ℚ)) / ((a1 : ℚ) + (b1 : ℚ) / (c1 : ℚ))
        if 1 / 1000000000000 < |(0 : ℚ)| / f then
          Except.error "si5351Config: frequency error is out of range"
        else
          Except.ok
            { f0 := f0, pll := pll, f := fAch, a0 := a0, b0 := b0, c0 := c0,
              a1 := a1, b1 := b1, c1 := c1, r := r, eps := f - fAch }

/-- Model of `support.New` (src/src/support/observation.go, lines 96-160).
The input guards of lines 100-106 come first; the PLL-hint rejection of
lines 118-120 fires exactly when none of the three earlier branches of the
selection chain took effect and the nonzero hint is outside
`[600MHz, 900MHz]`; otherwise execution continues in `newWithPll` with the
selected PLL frequency. -/
def New (f0 pll f : ℚ) : Except String Si5351Config :=
  if f0 < 10000000 ∨ 27000000 < f0 then
    Except.error "Si5351Config: invalid clock frequency"
  else if 200000000 < f then
    Except.error "Si5351Config: output frequency > 200MHz"
  else if ¬ 150000000 < f ∧ ¬ 100000000 ≤ f ∧ pll ≠ 0 ∧
      (pll < 600000000 ∨ 900000000 < pll) then
    Except.error "si5351Config: pll is out of range"
  else newWithPll f0 (chosenPll pll f) f

end Support

namespace Mtime

/-- Model of the local `ReduceObservation` in src/src/wspr/mtime.go
(lines 27-35), the reducer actually invoked by `MicroTime`.  Unlike the
support-package reducer it pairs the second low read with the second high
read whenever the high word changed. -/
def ReduceObservation (scale th1 tl1 th2 tl2 : ℕ) : ℕ :=
  if th1 = th2 then
    th1 * scale + tl1
  else
    th2 * scale + tl2

end Mtime

namespace CF

/-- The list of continued-fraction terms of `a / b` produced by the Euclidean
recursion that `Support.continuedFraction` follows: first term `a / b`, then
the terms of `b / (a % b)` until the remainder vanishes.  Junk `[]` for
`b = 0`. -/
def cfTerms (a b : ℕ) : List ℕ :=
  if hb : b = 0 then []
  else a / b :: (if a % b = 0 then [] else cfTerms b (a % b))
termination_by b
decreasing_by exact Nat.mod_lt _ (Nat.pos_of_ne_zero hb)

/-- A 2x2 matrix of naturals, used for continuant bookkeeping. -/
structure CFMat where
  a : ℕ
  b : ℕ
  c : ℕ
  d : ℕ
deriving Repr, DecidableEq

/-- Matrix product. -/
def CFMat.mul (M N : CFMat) : CFMat :=
  ⟨M.a * N.a + M.b * N.c, M.a * N.b + M.b * N.d,
   M.c * N.a + M.d * N.c, M.c * N.b + M.d * N.d⟩

/-- The elementary continuant matrix of one term. -/
def termMat (t : ℕ) : CFMat := ⟨t, 1, 1, 0⟩

/-- Continuant matrix of a term list: `cfMat [t0, ..., tn]` is
`termMat t0 * ... * termMat tn`.  Its `a`/`c` entries are the numerator and
denominator of the convergent `[t0; t1, ..., tn]`, and its `b`/`d` entries
those of the previous convergent. -/
def cfMat : List ℕ → CFMat
  | [] => ⟨1, 0, 0, 1⟩
  | t :: r => (termMat t).mul (cfMat r)

/-- Value of a continued fraction given by its term list, as a rational:
`cfVal (t :: r) = t + 1 / cfVal r`, with the Lean convention `1 / 0 = 0`
making the final term come out right. -/
def cfVal : List ℕ → ℚ
  | [] => 0
  | t :: r => (t : ℚ) + 1 / cfVal r

/-- The prefix of a term list that `Support.continuedFraction` actually
consumes: starting from accumulators `(e, f)`, keep taking terms while the
denominator `f + t * e` they would produce stays within `m`. -/
def takeDen (e f m : ℕ) : List ℕ → List ℕ
  | [] => []
  | t :: r => if m < f + t * e then [] else t :: takeDen (f + t * e) e m r

/-- The terms `Support.continuedFraction` discards, the complement of
`takeDen`. -/
def dropDen (e f m : ℕ) : List ℕ → List ℕ
  | [] => []
  | t :: r => if m < f + t * e then t :: r else dropDen (f + t * e) e m r

end CF

/-! ### Basic facts about the embedded functions -/

namespace Support

/-- The fuel argument of `cfAux` is irrelevant as soon as it dominates `b`:
the Euclidean argument strictly decreases, so any fuel of at least `b`
produces the value of the Go recursion. -/
theorem cfAux_congr :
    ∀ (fuel₁ fuel₂ a b e f m : ℕ), b ≤ fuel₁ → b ≤ fuel₂ →
      cfAux fuel₁ a b e f m = cfAux fuel₂ a b e f m := by
  intro fuel₁
  induction fuel₁ with
  | zero =>
    intro fuel₂ a b e f m h₁ h₂
    have hb : b = 0 := Nat.le_zero.mp h₁
    subst hb
    cases fuel₂ <;> simp [cfAux]
  | succ n ih =>
    intro fuel₂ a b e f m h₁ h₂
    by_cases hb : b = 0
    · subst hb
      cases fuel₂ <;> simp [cfAux]
    · obtain ⟨k, rfl⟩ : ∃ k, fuel₂ = k + 1 := ⟨fuel₂ - 1, by omega⟩
      simp only [cfAux, hb, if_false]
      by_cases h₃ : m < f + a / b * e
      · simp [h₃]
      · by_cases h₄ : a % b = 0
        · simp [h₃, h₄]
        · have hlt : a % b < b := Nat.mod_lt _ (Nat.pos_of_ne_zero hb)
          simp only [h₃, h₄, if_false]
          rw [ih k b (a % b) (f + a / b * e) e m (by omega) (by omega)]

/-- One-step unfolding of `Support.continuedFraction` for `1 ≤ b`, exactly
matching the Go source: compute `term = a / b` and `denom = f + term * e`;
return the sentinel `(1, 0)` when `denom` exceeds the cap, the exact value
`(term, 1)` when the remainder vanishes, and otherwise combine the recursive
result `(cx, dx)` on `(b, a % b)` into `(term * cx + dx, cx)`. -/
theorem continuedFraction_unfold (a b e f m : ℕ) (hb : 1 ≤ b) :
    continuedFraction a b e f m =
      if m < f + a / b * e then (1, 0)
      else if a % b = 0 then (a / b, 1)
      else
        (a / b * (continuedFraction b (a % b) (f + a / b * e) e m).1 +
            (continuedFraction b (a % b) (f + a / b * e) e m).2,
          (continuedFraction b (a % b) (f + a / b * e) e m).1) := by
  unfold continuedFraction
  obtain ⟨k, rfl⟩ : ∃ k, b = k + 1 := ⟨b - 1, by omega⟩
  have hlt : a % (k + 1) < k + 1 := Nat.mod_lt _ (by omega)
  conv_lhs => rw [cfAux]
  rw [if_neg (by omega)]
  by_cases h₃ : m < f + a / (k + 1) * e
  · simp [h₃]
  · by_cases h₄ : a % (k + 1) = 0
    · simp [h₃, h₄]
    · simp only [h₃, h₄, if_false]
      rw [cfAux_congr k (a % (k + 1)) (k + 1) (a % (k + 1)) (f + a / (k + 1) * e) e m
        (by omega) le_rfl]

/-! ### Concrete evaluations of the solver and guard lemmas -/

/-- The output-divider loop reaches `r = 256` (and so the reject branch)
whenever the multisynth ratio exceeds `2048 * 128 = 262144`. -/
theorem rloop_256 (z : ℚ) (hz : 262144 < z) : rloop z 9 1 = 256 := by
  have step : ∀ r : ℕ, 0 < r → r ≤ 128 → 2048 * (r : ℚ) ≤ 262144 → 2048 < z / (r : ℚ) := by
    intro r hr h128 hbound
    rw [lt_div_iff (by exact_mod_cast hr)]
    linarith
  rw [rloop, if_pos ⟨step 1 (by norm_num) (by norm_num) (by norm_num), by norm_num⟩]
  rw [rloop, if_pos ⟨step 2 (by norm_num) (by norm_num) (by norm_num), by norm_num⟩]
  rw [rloop, if_pos ⟨step 4 (by norm_num) (by norm_num) (by norm_num), by norm_num⟩]
  rw [rloop, if_pos ⟨step 8 (by norm_num) (by norm_num) (by norm_num), by norm_num⟩]
  rw [rloop, if_pos ⟨step 16 (by norm_num) (by norm_num) (by norm_num), by norm_num⟩]
  rw [rloop, if_pos ⟨step 32 (by norm_num) (by norm_num) (by norm_num), by norm_num⟩]
  rw [rloop, if_pos ⟨step 64 (by norm_num) (by norm_num) (by norm_num), by norm_num⟩]
  rw [rloop, if_pos ⟨step 128 (by norm_num) (by norm_num) (by norm_num), by norm_num⟩]
  rw [rloop, if_neg (by norm_num)]

/-- Evaluation of `New` at `f0 = 10MHz`, `pll = 900MHz`, `f = 25MHz`: the
feedback ratio is exactly 90 and the call succeeds.  All float64 operations
for this input are exact, so the rational model agrees with the Go code. -/
theorem New_z90_run :
    New 10000000 900000000 25000000 =
      Except.ok ⟨10000000, 900000000, 25000000, 90, 0, 1, 36, 0, 1, 1, 0⟩ := by
  have hIt : Int.toNat (90000000000000 : ℤ) = 90000000000000 := rfl
  have hIt2 : Int.toNat (36000000000000 : ℤ) = 36000000000000 := rfl
  have hnf1a : (NearestFraction 90000000000000 1000000000000 1048576).1 = 90 := by decide
  have hnf1b : (NearestFraction 90000000000000 1000000000000 1048576).2.1 = 1 := by decide
  have hnf2a : (NearestFraction 36000000000000 1000000000000 1048576).1 = 36 := by decide
  have hnf2b : (NearestFraction 36000000000000 1000000000000 1048576).2.1 = 1 := by decide
  simp only [New, newWithPll, chosenPll]
  norm_num [hIt, hIt2, hnf1a, hnf1b, hnf2a, hnf2b, rloop, near, Si5351Config.mk.injEq]

/-- Evaluation of `New` at `f0 = 10MHz`, hint `0`, `f = 100kHz`: the call
succeeds with output divider `r = 4`, stored achieved frequency `400000`
(the code omits the division by `r` on line 154) and `eps = -300000`.  All
float64 operations for this input are exact. -/
theorem New_r4_run :
    New 10000000 0 100000 =
      Except.ok ⟨10000000, 600000000, 400000, 60, 0, 1, 1500, 0, 1, 4, -300000⟩ := by
  have hIt : Int.toNat (60000000000000 : ℤ) = 60000000000000 := rfl
  have hIt2 : Int.toNat (1500000000000000 : ℤ) = 1500000000000000 := rfl
  have hnf1a : (NearestFraction 60000000000000 1000000000000 1048576).1 = 60 := by decide
  have hnf1b : (NearestFraction 60000000000000 1000000000000 1048576).2.1 = 1 := by decide
  have hnf2a : (NearestFraction 1500000000000000 1000000000000 1048576).1 = 1500 := by decide
  have hnf2b : (NearestFraction 1500000000000000 1000000000000 1048576).2.1 = 1 := by decide
  simp only [New, newWithPll, chosenPll]
  norm_num [hIt, hIt2, hnf1a, hnf1b, hnf2a, hnf2b, rloop, near, Si5351Config.mk.injEq]

/-- Evaluation of `New` at `f0 = 25MHz`, hint `0`, `f = 2300Hz`: the call
succeeds (with `r = 128`), although 2300 is below the 2302Hz boundary the
spec quotes for rejection. -/
theorem New_2300_run :
    New 25000000 0 2300 =
      Except.ok ⟨25000000, 600000000, 294400, 24, 0, 1, 2038, 1, 23, 128, -292100⟩ := by
  have hIt : Int.toNat (24000000000000 : ℤ) = 24000000000000 := rfl
  have hIt2 : Int.toNat (2038043478260869 : ℤ) = 2038043478260869 := rfl
  have hnf1a : (NearestFraction 24000000000000 1000000000000 1048576).1 = 24 := by decide
  have hnf1b : (NearestFraction 24000000000000 1000000000000 1048576).2.1 = 1 := by decide
  have hnf2a : (NearestFraction 2038043478260869 1000000000000 1048576).1 = 46875 := by decide
  have hnf2b : (NearestFraction 2038043478260869 1000000000000 1048576).2.1 = 23 := by decide
  simp only [New, newWithPll, chosenPll]
  norm_num [hIt, hIt2, hnf1a, hnf1b, hnf2a, hnf2b, rloop, near, Si5351Config.mk.injEq]

/-- Evaluation of `New` at `f0 = 10MHz`,
`pll = 2516582439999987 / 2^22` (an exactly representable float64 value,
about `600000009.5367`Hz) and `f = 25MHz`: the call succeeds and the first
divider triple has `c0 = 1048576 = 2^20`, one more than the 20-bit
fractional field can hold.  The float64 computation produces the same
scaled integer `60000000953674`, so the Go code returns the same triple. -/
theorem New_c8_run :
    New 10000000 (2516582439999987 / 4194304) 25000000 =
      Except.ok ⟨10000000, 2516582439999987 / 4194304, 4915200078125 / 196608,
        60, 1, 1048576, 24, 0, 1, 1, -78125 / 196608⟩ := by
  have hIt : Int.toNat (60000000953674 : ℤ) = 60000000953674 := rfl
  have hIt2 : Int.toNat (24000000381469 : ℤ) = 24000000381469 := rfl
  have hnf1a : (NearestFraction 60000000953674 1000000000000 1048576).1 = 62914561 := by decide
  have hnf1b : (NearestFraction 60000000953674 1000000000000 1048576).2.1 = 1048576 := by decide
  have hnf2a : (NearestFraction 24000000381469 1000000000000 1048576).1 = 24 := by decide
  have hnf2b : (NearestFraction 24000000381469 1000000000000 1048576).2.1 = 1 := by decide
  simp only [New, newWithPll, chosenPll]
  norm_num [hIt, hIt2, hnf1a, hnf1b, hnf2a, hnf2b, rloop, near, Si5351Config.mk.injEq]

/-- With `f0 = 25MHz` and hint `0`, every positive target below
`600MHz / 2^18` (about 2288.8Hz) drives the output-divider loop past
`r = 128` and is rejected. -/
theorem New_low_f_err (f : ℚ) (hf : 0 < f) (hcut : f * 262144 < 600000000) :
    ∀ cfg, New 25000000 0 f ≠ Except.ok cfg := by
  intro cfg
  have h5 : f < 5000000 := by linarith
  have hK : Int.toNat ⌊(600000000 : ℚ) / 25000000 * 1000000000000⌋ = 24000000000000 := by
    have h : ⌊(600000000 : ℚ) / 25000000 * 1000000000000⌋ = 24000000000000 := by norm_num
    rw [h]
    rfl
  have hnf1a : (NearestFraction 24000000000000 1000000000000 (2 ^ 20)).1 = 24 := by decide
  have hnf1b : (NearestFraction 24000000000000 1000000000000 (2 ^ 20)).2.1 = 1 := by decide
  have hz2 : (262144 : ℚ) < 600000000 / f := by
    rw [lt_div_iff hf]
    linarith
  simp only [New, newWithPll, chosenPll]
  rw [if_neg (by norm_num : ¬((25000000 : ℚ) < 10000000 ∨ (27000000 : ℚ) < 25000000))]
  rw [if_neg (show ¬(200000000 : ℚ) < f by linarith)]
  rw [if_neg (show ¬(¬150000000 < f ∧ ¬100000000 ≤ f ∧ (0 : ℚ) ≠ 0 ∧
    ((0 : ℚ) < 600000000 ∨ (900000000 : ℚ) < 0)) by simp)]
  rw [if_neg (show ¬(150000000 : ℚ) < f by linarith)]
  rw [if_neg (show ¬(100000000 : ℚ) ≤ f by linarith)]
  simp only [if_true]
  rw [if_pos h5]
  rw [if_neg (by norm_num : ¬(600000000 : ℚ) / 25000000 < 15)]
  rw [if_neg (by norm_num : ¬(90 : ℚ) < (600000000 : ℚ) / 25000000)]
  rw [hK, hnf1a, hnf1b]
  norm_num [near]
  rw [rloop_256 (600000000 / f) hz2]
  rw [if_neg (show ¬((1 : ℚ) / 1000000000 < |600000000 / f - 4| ∧
    (1 : ℚ) / 1000000000 < |600000000 / f - 6| ∧ 600000000 / f < 8) from by
    intro h
    linarith [h.2.2, hz2])]
  rw [if_pos (show (128 : ℕ) < 256 by norm_num)]
  simp

/-- Any successful call of `New` passed both feedback-ratio guards, so the
ratio of the chosen PLL frequency to `f0` lies in the closed interval
`[15, 90]`. -/
theorem New_ok_ratio (f0 pll f : ℚ) (cfg : Si5351Config)
    (h : New f0 pll f = Except.ok cfg) :
    15 ≤ chosenPll pll f / f0 ∧ chosenPll pll f / f0 ≤ 90 := by
  simp only [New] at h
  split at h
  · exact absurd h (by simp)
  · split at h
    · exact absurd h (by simp)
    · split at h
      · exact absurd h (by simp)
      · simp only [newWithPll] at h
        split at h
        · exact absurd h (by simp)
        · split at h
          · exact absurd h (by simp)
          · rename_i hz1 hz2
            exact ⟨not_lt.mp hz1, not_lt.mp hz2⟩

/-- Reference frequencies outside `[10MHz, 27MHz]` are always rejected. -/
theorem New_f0_err (f0 pll f : ℚ) (h : f0 < 10000000 ∨ 27000000 < f0) :
    ∀ cfg, New f0 pll f ≠ Except.ok cfg := by
  intro cfg
  simp only [New]
  rw [if_pos h]
  simp

/-- Output frequencies above 200MHz are always rejected. -/
theorem New_fhigh_err (f0 pll f : ℚ) (h : 200000000 < f) :
    ∀ cfg, New f0 pll f ≠ Except.ok cfg := by
  intro cfg
  simp only [New]
  split <;> simp

/-- A nonzero PLL hint outside `[600MHz, 900MHz]`, not overridden by the
forced choices (which require `f ≥ 100MHz`), is always rejected. -/
theorem New_pll_err (f0 pll f : ℚ) (hp : pll ≠ 0)
    (ho : pll < 600000000 ∨ 900000000 < pll) (hf : f < 100000000) :
    ∀ cfg, New f0 pll f ≠ Except.ok cfg := by
  intro cfg
  simp only [New]
  split <;> try simp
  split <;> try simp
  split <;> try simp
  rename_i h1 h2 h3
  exact absurd ⟨by linarith, by linarith, hp, ho⟩ h3

end Support


namespace CF

/-! ### Continued-fraction term lists -/

/-- Every term of the Euclidean expansion of `a / b` after the first is at
least 1 (once `b ≤ a`, every term including the first is). -/
theorem cfTerms_all_pos :
    ∀ b a, b ≠ 0 → b ≤ a → ∀ t ∈ cfTerms a b, 1 ≤ t := by
  intro b
  induction b using Nat.strong_induction_on with
  | _ b ih =>
    intro a hb hba t ht
    rw [cfTerms, dif_neg hb] at ht
    rcases List.mem_cons.mp ht with h | h
    · subst h
      exact (Nat.one_le_div_iff (Nat.pos_of_ne_zero hb)).mpr hba
    · by_cases hmod : a % b = 0
      · simp [hmod] at h
      · rw [if_neg hmod] at h
        have hlt : a % b < b := Nat.mod_lt _ (Nat.pos_of_ne_zero hb)
        exact ih (a % b) hlt b hmod (Nat.le_of_lt hlt) t h

/-- The tail of `cfTerms a b` consists of terms that are at least 1. -/
theorem cfTerms_tail_pos (a b : ℕ) (hb : b ≠ 0) :
    ∀ t ∈ (cfTerms a b).tail, 1 ≤ t := by
  rw [cfTerms, dif_neg hb]
  intro t ht
  by_cases hmod : a % b = 0
  · simp [hmod] at ht
  · rw [List.tail_cons, if_neg hmod] at ht
    have hlt : a % b < b := Nat.mod_lt _ (Nat.pos_of_ne_zero hb)
    exact cfTerms_all_pos (a % b) b hmod (Nat.le_of_lt hlt) t ht

/-- `cfTerms a b` is nonempty for `b ≠ 0` and starts with `a / b`. -/
theorem cfTerms_eq_cons (a b : ℕ) (hb : b ≠ 0) :
    cfTerms a b = a / b :: (if a % b = 0 then [] else cfTerms b (a % b)) := by
  rw [cfTerms, dif_neg hb]

/-- A continued fraction all of whose terms are at least 1 has value at
least 1. -/
theorem cfVal_one_le : ∀ l : List ℕ, (∀ t ∈ l, 1 ≤ t) → l ≠ [] → 1 ≤ cfVal l := by
  intro l
  induction l with
  | nil => intro _ h; exact absurd rfl h
  | cons t r ih =>
    intro h _
    have ht : (1 : ℚ) ≤ (t : ℚ) := by exact_mod_cast h t (List.mem_cons_self t r)
    rw [cfVal]
    rcases eq_or_ne r [] with rfl | hr
    · simpa [cfVal] using ht
    · have hr1 : 1 ≤ cfVal r := ih (fun u hu => h u (List.mem_cons_of_mem t hu)) hr
      have hpos : 0 < 1 / cfVal r := by positivity
      linarith

/-- The Euclidean term list of `a / b` evaluates back to `a / b`. -/
theorem cfVal_cfTerms : ∀ b a, b ≠ 0 → cfVal (cfTerms a b) = (a : ℚ) / (b : ℚ) := by
  intro b
  induction b using Nat.strong_induction_on with
  | _ b ih =>
    intro a hb
    have hb0 : ((b : ℕ) : ℚ) ≠ 0 := Nat.cast_ne_zero.mpr hb
    rw [cfTerms, dif_neg hb, cfVal]
    by_cases hmod : a % b = 0
    · rw [if_pos hmod]
      simp only [cfVal, one_div, inv_zero, add_zero]
      rw [Nat.cast_div (Nat.dvd_iff_mod_eq_zero.mpr hmod) hb0]
    · rw [if_neg hmod]
      have hlt : a % b < b := Nat.mod_lt _ (Nat.pos_of_ne_zero hb)
      rw [ih (a % b) hlt b hmod]
      have hm0 : ((a % b : ℕ) : ℚ) ≠ 0 := Nat.cast_ne_zero.mpr hmod
      rw [one_div_div]
      have key : (a : ℚ) = (b : ℚ) * ((a / b : ℕ) : ℚ) + ((a % b : ℕ) : ℚ) := by
        exact_mod_cast (Nat.div_add_mod a b).symm
      field_simp
      linarith [key]

/-! ### Continuant matrices -/

theorem CFMat.mul_assoc (M N P : CFMat) : (M.mul N).mul P = M.mul (N.mul P) := by
  simp only [CFMat.mul, CFMat.mk.injEq]
  refine ⟨by ring, by ring, by ring, by ring⟩

theorem cfMat_nil : cfMat [] = ⟨1, 0, 0, 1⟩ := rfl

theorem cfMat_cons (t : ℕ) (r : List ℕ) :
    cfMat (t :: r) =
      ⟨t * (cfMat r).a + (cfMat r).c, t * (cfMat r).b + (cfMat r).d,
        (cfMat r).a, (cfMat r).b⟩ := by
  simp [cfMat, CFMat.mul, termMat]

theorem CFMat.one_mul (M : CFMat) : (⟨1, 0, 0, 1⟩ : CFMat).mul M = M := by
  cases M
  simp [CFMat.mul]

theorem cfMat_append (l₁ l₂ : List ℕ) :
    cfMat (l₁ ++ l₂) = (cfMat l₁).mul (cfMat l₂) := by
  induction l₁ with
  | nil =>
    show cfMat l₂ = (⟨1, 0, 0, 1⟩ : CFMat).mul (cfMat l₂)
    rw [CFMat.one_mul]
  | cons t r ih =>
    rw [List.cons_append]
    show (termMat t).mul (cfMat (r ++ l₂)) = ((termMat t).mul (cfMat r)).mul (cfMat l₂)
    rw [ih, CFMat.mul_assoc]

/-- The back recurrence: appending one term multiplies on the right by its
elementary matrix. -/
theorem cfMat_append_singleton (l : List ℕ) (t : ℕ) :
    cfMat (l ++ [t]) =
      ⟨(cfMat l).a * t + (cfMat l).b, (cfMat l).a,
        (cfMat l).c * t + (cfMat l).d, (cfMat l).c⟩ := by
  rw [cfMat_append]
  simp [cfMat, CFMat.mul, termMat]

/-- Determinant of the continuant matrix: `(-1)` to the number of terms. -/
theorem cfMat_det :
    ∀ l : List ℕ,
      ((cfMat l).a : ℤ) * (cfMat l).d - (cfMat l).b * (cfMat l).c =
        (-1) ^ l.length := by
  intro l
  induction l with
  | nil => simp [cfMat]
  | cons t r ih =>
    rw [cfMat_cons]
    push_cast
    simp only [List.length_cons, pow_succ]
    linear_combination (-1 : ℤ) * ih

/-- The `a` entry of the continuant matrix of an all-positive list is
positive. -/
theorem cfMat_a_pos : ∀ l : List ℕ, (∀ t ∈ l, 1 ≤ t) → 1 ≤ (cfMat l).a := by
  intro l
  induction l with
  | nil => simp [cfMat]
  | cons t r ih =>
    intro h
    rw [cfMat_cons]
    dsimp only
    have ht : 1 ≤ t := h t (List.mem_cons_self t r)
    have ha : 1 ≤ (cfMat r).a := ih (fun u hu => h u (List.mem_cons_of_mem t hu))
    have : 1 * 1 ≤ t * (cfMat r).a := Nat.mul_le_mul ht ha
    omega

/-- Appending all-positive terms never decreases the `a` entry. -/
theorem cfMat_a_mono :
    ∀ ext : List ℕ, (∀ t ∈ ext, 1 ≤ t) →
      ∀ l : List ℕ, (cfMat l).a ≤ (cfMat (l ++ ext)).a := by
  intro ext
  induction ext with
  | nil => intro _ l; simp
  | cons t r ih =>
    intro h l
    have ht : 1 ≤ t := h t (List.mem_cons_self t r)
    have h1 : (cfMat l).a ≤ (cfMat (l ++ [t])).a := by
      rw [cfMat_append_singleton]
      dsimp only
      have : (cfMat l).a * 1 ≤ (cfMat l).a * t := Nat.mul_le_mul_left _ ht
      omega
    have h2 : (cfMat (l ++ [t])).a ≤ (cfMat ((l ++ [t]) ++ r)).a :=
      ih (fun u hu => h u (List.mem_cons_of_mem t hu)) _
    rw [show (l ++ [t]) ++ r = l ++ t :: r by rw [List.append_assoc]; rfl] at h2
    exact le_trans h1 h2

/-- Appending all-positive terms never decreases the `c` entry. -/
theorem cfMat_c_mono :
    ∀ ext : List ℕ, (∀ t ∈ ext, 1 ≤ t) →
      ∀ l : List ℕ, (cfMat l).c ≤ (cfMat (l ++ ext)).c := by
  intro ext
  induction ext with
  | nil => intro _ l; simp
  | cons t r ih =>
    intro h l
    have ht : 1 ≤ t := h t (List.mem_cons_self t r)
    have h1 : (cfMat l).c ≤ (cfMat (l ++ [t])).c := by
      rw [cfMat_append_singleton]
      dsimp only
      have : (cfMat l).c * 1 ≤ (cfMat l).c * t := Nat.mul_le_mul_left _ ht
      omega
    have h2 : (cfMat (l ++ [t])).c ≤ (cfMat ((l ++ [t]) ++ r)).c :=
      ih (fun u hu => h u (List.mem_cons_of_mem t hu)) _
    rw [show (l ++ [t]) ++ r = l ++ t :: r by rw [List.append_assoc]; rfl] at h2
    exact le_trans h1 h2

/-! ### Splitting a continued fraction at a convergent -/

/-- The tail of `l ++ [t]` is all-positive when the tail of `l` is and
`1 ≤ t`. -/
theorem tail_append_pos (l : List ℕ) (t : ℕ)
    (h : ∀ u ∈ l.tail, 1 ≤ u) (ht : 1 ≤ t) :
    ∀ u ∈ (l ++ [t]).tail, 1 ≤ u := by
  cases l with
  | nil => simp [ht]
  | cons v r =>
    intro u hu
    rw [List.cons_append, List.tail_cons] at hu
    rcases List.mem_append.mp hu with h' | h'
    · exact h u h'
    · rw [List.mem_singleton.mp h']
      exact ht

/-- Möbius action of the continuant matrix: the value of `l₁ ++ l₂` is the
fractional linear image of the value of `l₂` under `cfMat l₁`. -/
theorem cfVal_split :
    ∀ l₁ : List ℕ, (∀ u ∈ l₁.tail, 1 ≤ u) →
      ∀ l₂ : List ℕ, l₂ ≠ [] → (∀ u ∈ l₂, 1 ≤ u) →
        cfVal (l₁ ++ l₂) =
          (((cfMat l₁).a : ℚ) * cfVal l₂ + ((cfMat l₁).b : ℚ)) /
            (((cfMat l₁).c : ℚ) * cfVal l₂ + ((cfMat l₁).d : ℚ)) := by
  intro l₁
  induction l₁ with
  | nil =>
    intro _ l₂ _ _
    simp [cfMat]
  | cons t r ih =>
    intro h l₂ hne hpos
    have hr : ∀ u ∈ r, 1 ≤ u := by simpa using h
    have hrt : ∀ u ∈ r.tail, 1 ≤ u := fun u hu => hr u (List.mem_of_mem_tail hu)
    have hy : 1 ≤ cfVal l₂ := cfVal_one_le l₂ hpos hne
    have hA : 1 ≤ (cfMat r).a := cfMat_a_pos r hr
    have hAq : (1 : ℚ) ≤ ((cfMat r).a : ℚ) := by exact_mod_cast hA
    have hBq : (0 : ℚ) ≤ ((cfMat r).b : ℚ) := Nat.cast_nonneg _
    have hden : (0 : ℚ) < ((cfMat r).a : ℚ) * cfVal l₂ + ((cfMat r).b : ℚ) := by nlinarith
    rw [List.cons_append, cfVal, ih hrt l₂ hne hpos, cfMat_cons]
    dsimp only
    rw [one_div_div]
    push_cast
    field_simp
    ring

/-- Positivity of the split denominator. -/
theorem cfVal_split_den_pos (l₁ : List ℕ) (h : ∀ u ∈ l₁.tail, 1 ≤ u)
    (y : ℚ) (hy : 1 ≤ y) :
    (0 : ℚ) < ((cfMat l₁).c : ℚ) * y + ((cfMat l₁).d : ℚ) := by
  cases l₁ with
  | nil => simp [cfMat]
  | cons t r =>
    rw [cfMat_cons]
    dsimp only
    have hr : ∀ u ∈ r, 1 ≤ u := by simpa using h
    have hA : 1 ≤ (cfMat r).a := cfMat_a_pos r hr
    have hAq : (1 : ℚ) ≤ ((cfMat r).a : ℚ) := by exact_mod_cast hA
    have hBq : (0 : ℚ) ≤ ((cfMat r).b : ℚ) := Nat.cast_nonneg _
    nlinarith

/-- The value of a nonempty all-positive-tail term list is the ratio of the
`a` and `c` entries of its continuant matrix. -/
theorem cfVal_eq_div :
    ∀ l : List ℕ, l ≠ [] → (∀ u ∈ l.tail, 1 ≤ u) →
      cfVal l = ((cfMat l).a : ℚ) / ((cfMat l).c : ℚ) := by
  intro l
  induction l with
  | nil => intro h; exact absurd rfl h
  | cons t r ih =>
    intro _ h
    rcases eq_or_ne r ([] : List ℕ) with rfl | hr
    · simp [cfVal, cfMat, CFMat.mul, termMat]
    · have hrall : ∀ u ∈ r, 1 ≤ u := by simpa using h
      have hrt : ∀ u ∈ r.tail, 1 ≤ u := fun u hu => hrall u (List.mem_of_mem_tail hu)
      have hA : 1 ≤ (cfMat r).a := cfMat_a_pos r hrall
      have hA0 : ((cfMat r).a : ℚ) ≠ 0 := by
        have : (1 : ℚ) ≤ ((cfMat r).a : ℚ) := by exact_mod_cast hA
        linarith
      rw [cfVal, ih hr hrt, cfMat_cons]
      dsimp only
      rw [one_div_div]
      push_cast
      field_simp

/-- Auxiliary algebra: subtracting the image point `A / C`-style from a
Möbius quotient leaves `-det` over the denominator. -/
theorem div_linear_sub (A B C D y det : ℚ) (hP : C * y + D ≠ 0)
    (hdet : A * D - B * C = det) :
    C * ((A * y + B) / (C * y + D)) - A = -det / (C * y + D) := by
  rw [eq_div_iff hP, sub_mul, mul_assoc, div_mul_cancel₀ _ hP]
  linear_combination -hdet

/-- Signed distance from a convergent to the full value: splitting
`l₁ ++ l₂` at `l₁` with matrix entries `(A, B, C, D)` and tail value `y`,
`C * x - A = (-1)^(|l₁|+1) / (C * y + D)`. -/
theorem conv_sub_formula (l₁ : List ℕ) (h : ∀ u ∈ l₁.tail, 1 ≤ u)
    (l₂ : List ℕ) (hne : l₂ ≠ []) (hpos : ∀ u ∈ l₂, 1 ≤ u) :
    ((cfMat l₁).c : ℚ) * cfVal (l₁ ++ l₂) - ((cfMat l₁).a : ℚ) =
      (-1) ^ (l₁.length + 1) /
        (((cfMat l₁).c : ℚ) * cfVal l₂ + ((cfMat l₁).d : ℚ)) := by
  have hy : 1 ≤ cfVal l₂ := cfVal_one_le l₂ hpos hne
  have hden : (0 : ℚ) < ((cfMat l₁).c : ℚ) * cfVal l₂ + ((cfMat l₁).d : ℚ) :=
    cfVal_split_den_pos l₁ h _ hy
  have hdetQ :
      ((cfMat l₁).a : ℚ) * ((cfMat l₁).d : ℚ) -
          ((cfMat l₁).b : ℚ) * ((cfMat l₁).c : ℚ) =
        (-1) ^ l₁.length := by
    exact_mod_cast cfMat_det l₁
  rw [cfVal_split l₁ h l₂ hne hpos]
  rw [show ((-1 : ℚ)) ^ (l₁.length + 1) = -((-1 : ℚ) ^ l₁.length) by
    rw [pow_succ]; ring]
  exact div_linear_sub _ _ _ _ _ _ hden.ne' hdetQ

/-! ### The best-approximation estimate -/

/-- If two rationals have a nonnegative product, adding the second cannot
shrink the absolute value of the first. -/
theorem abs_le_abs_add_of_nonneg (u v : ℚ) (h : 0 ≤ u * v) : |u| ≤ |u + v| := by
  rcases le_or_lt 0 u with hu | hu
  · rcases le_or_lt 0 v with hv | hv
    · rw [abs_of_nonneg hu, abs_of_nonneg (by linarith : (0 : ℚ) ≤ u + v)]
      linarith
    · have hu0 : u = 0 := by nlinarith
      simp [hu0]
  · rcases le_or_lt 0 v with hv | hv
    · have hv0 : v = 0 := by nlinarith
      simp [hv0]
    · rw [abs_of_neg hu, abs_of_neg (by linarith : u + v < 0)]
      linarith

/-- Core of the classical best-approximation argument: if `(A, C)` and
`(A', C')` are consecutive convergents (unimodular pair, residuals of
opposite sign), then any fraction `p / q` with `1 ≤ q < C'` has a second-kind
residual no smaller than that of `(A, C)`. -/
theorem key_estimate_core (A A' C C' p q ε : ℤ) (x s s' : ℚ)
    (hε : ε = 1 ∨ ε = -1)
    (hdet : A * C' - A' * C = ε)
    (hs : (C : ℚ) * x - (A : ℚ) = s)
    (hs' : (C' : ℚ) * x - (A' : ℚ) = s')
    (hsign : s * s' ≤ 0)
    (hC : 0 ≤ C) (hq1 : 1 ≤ q) (hqC' : q < C') :
    |s| ≤ |(q : ℚ) * x - (p : ℚ)| := by
  have hε2 : ε * ε = 1 := by rcases hε with rfl | rfl <;> norm_num
  have hC'pos : (0 : ℤ) < C' := by omega
  set μ : ℤ := ε * (C' * p - A' * q) with hμdef
  set ν : ℤ := ε * (A * q - C * p) with hνdef
  have id_p : p = μ * A + ν * A' := by
    rw [hμdef, hνdef]
    linear_combination (-(ε * p)) * hdet - p * hε2
  have id_q : q = μ * C + ν * C' := by
    rw [hμdef, hνdef]
    linear_combination (-(ε * q)) * hdet - q * hε2
  have idpQ : (p : ℚ) = (μ : ℚ) * (A : ℚ) + (ν : ℚ) * (A' : ℚ) := by
    exact_mod_cast id_p
  have idqQ : (q : ℚ) = (μ : ℚ) * (C : ℚ) + (ν : ℚ) * (C' : ℚ) := by
    exact_mod_cast id_q
  have h_combo : (q : ℚ) * x - (p : ℚ) = (μ : ℚ) * s + (ν : ℚ) * s' := by
    rw [← hs, ← hs', idpQ, idqQ]
    ring
  rw [h_combo]
  rcases eq_or_ne ν 0 with hν | hν
  · have hqz : q = μ * C := by rw [id_q, hν]; ring
    have hμ1 : 1 ≤ μ := by
      rcases le_or_lt μ 0 with h | h
      · exfalso
        have hμC : μ * C ≤ 0 := mul_nonpos_of_nonpos_of_nonneg h hC
        omega
      · omega
    have hμab : (1 : ℚ) ≤ |(μ : ℚ)| := by
      rw [abs_of_nonneg (by exact_mod_cast (by omega : (0 : ℤ) ≤ μ) : (0 : ℚ) ≤ (μ : ℚ))]
      exact_mod_cast hμ1
    rw [hν]
    push_cast
    rw [zero_mul, add_zero, abs_mul]
    nlinarith [abs_nonneg s]
  rcases eq_or_ne μ 0 with hμ | hμ
  · exfalso
    have hqz : q = ν * C' := by rw [id_q, hμ]; ring
    have hν1 : 1 ≤ ν := by
      rcases le_or_lt ν 0 with h | h
      · exfalso
        have : ν * C' ≤ 0 := mul_nonpos_of_nonpos_of_nonneg h hC'pos.le
        omega
      · omega
    nlinarith [hqz, hν1, hC'pos, hqC']
  · have hμν : μ * ν < 0 := by
      rcases lt_trichotomy μ 0 with hμn | hμ0 | hμp
      · rcases lt_trichotomy ν 0 with hνn | hν0 | hνp
        · exfalso
          have h1 : μ * C ≤ 0 := mul_nonpos_of_nonpos_of_nonneg hμn.le hC
          have h2 : ν * C' ≤ -C' := by nlinarith
          omega
        · exact absurd hν0 hν
        · exact mul_neg_of_neg_of_pos hμn hνp
      · exact absurd hμ0 hμ
      · rcases lt_trichotomy ν 0 with hνn | hν0 | hνp
        · exact mul_neg_of_pos_of_neg hμp hνn
        · exact absurd hν0 hν
        · exfalso
          have h1 : 0 ≤ μ * C := mul_nonneg (by omega) hC
          have h2 : C' ≤ ν * C' := by nlinarith
          omega
    have hprod : 0 ≤ ((μ : ℚ) * s) * ((ν : ℚ) * s') := by
      have h1 : ((μ : ℚ) * s) * ((ν : ℚ) * s') = ((μ * ν : ℤ) : ℚ) * (s * s') := by
        push_cast
        ring
      rw [h1]
      exact mul_nonneg_of_nonpos_of_nonpos (by exact_mod_cast hμν.le) hsign
    have habs : |(μ : ℚ) * s| ≤ |(μ : ℚ) * s + (ν : ℚ) * s'| :=
      abs_le_abs_add_of_nonneg _ _ hprod
    have hμ1 : (1 : ℚ) ≤ |(μ : ℚ)| := by
      have h1 : 1 ≤ |μ| := Int.one_le_abs hμ
      calc (1 : ℚ) ≤ ((|μ| : ℤ) : ℚ) := by exact_mod_cast h1
        _ = |(μ : ℚ)| := by push_cast; rfl
    calc |s| = 1 * |s| := (one_mul _).symm
      _ ≤ |(μ : ℚ)| * |s| := mul_le_mul_of_nonneg_right hμ1 (abs_nonneg _)
      _ = |(μ : ℚ) * s| := (abs_mul _ _).symm
      _ ≤ _ := habs

/-- Best-approximation estimate for a truncated continued fraction: if the
expansion continues past the prefix `l₁` with next term `t`, then any
fraction `p / q` whose denominator is below the next convergent denominator
has a second-kind residual at least that of the convergent of `l₁`. -/
theorem key_estimate (l₁ : List ℕ) (t : ℕ) (l₂ : List ℕ)
    (h₁ : ∀ u ∈ l₁.tail, 1 ≤ u) (h₂ : ∀ u ∈ t :: l₂, 1 ≤ u)
    (p : ℤ) (q : ℕ) (hq : 1 ≤ q)
    (hqlt : q < (cfMat (l₁ ++ [t])).c) :
    |((cfMat l₁).c : ℚ) * cfVal (l₁ ++ t :: l₂) - ((cfMat l₁).a : ℚ)| ≤
      |(q : ℚ) * cfVal (l₁ ++ t :: l₂) - (p : ℚ)| := by
  have ht : 1 ≤ t := h₂ t (List.mem_cons_self t l₂)
  have htail' : ∀ u ∈ (l₁ ++ [t]).tail, 1 ≤ u := tail_append_pos l₁ t h₁ ht
  have hA' : (cfMat (l₁ ++ [t])).a = (cfMat l₁).a * t + (cfMat l₁).b := by
    rw [cfMat_append_singleton]
  have hC' : (cfMat (l₁ ++ [t])).c = (cfMat l₁).c * t + (cfMat l₁).d := by
    rw [cfMat_append_singleton]
  have hε : ((-1 : ℤ) ^ l₁.length = 1) ∨ ((-1 : ℤ) ^ l₁.length = -1) := by
    rcases Nat.even_or_odd l₁.length with he | ho
    · exact Or.inl he.neg_one_pow
    · exact Or.inr ho.neg_one_pow
  have hdet : ((cfMat l₁).a : ℤ) * ((cfMat (l₁ ++ [t])).c : ℤ) -
      ((cfMat (l₁ ++ [t])).a : ℤ) * ((cfMat l₁).c : ℤ) = (-1) ^ l₁.length := by
    rw [hA', hC']
    push_cast
    linear_combination cfMat_det l₁
  have hq1 : (1 : ℤ) ≤ (q : ℤ) := by exact_mod_cast hq
  have hqlt' : (q : ℤ) < ((cfMat (l₁ ++ [t])).c : ℤ) := by exact_mod_cast hqlt
  have hCnn : (0 : ℤ) ≤ ((cfMat l₁).c : ℤ) := Int.natCast_nonneg _
  have hs := conv_sub_formula l₁ h₁ (t :: l₂) (List.cons_ne_nil t l₂) h₂
  have hsQ : (((cfMat l₁).c : ℤ) : ℚ) * cfVal (l₁ ++ t :: l₂) -
      (((cfMat l₁).a : ℤ) : ℚ) =
      ((cfMat l₁).c : ℚ) * cfVal (l₁ ++ t :: l₂) - ((cfMat l₁).a : ℚ) := by
    push_cast
    ring
  have hs'Q : (((cfMat (l₁ ++ [t])).c : ℤ) : ℚ) * cfVal (l₁ ++ t :: l₂) -
      (((cfMat (l₁ ++ [t])).a : ℤ) : ℚ) =
      ((cfMat (l₁ ++ [t])).c : ℚ) * cfVal (l₁ ++ t :: l₂) -
        ((cfMat (l₁ ++ [t])).a : ℚ) := by
    push_cast
    ring
  have hsign :
      (((cfMat l₁).c : ℚ) * cfVal (l₁ ++ t :: l₂) - ((cfMat l₁).a : ℚ)) *
        (((cfMat (l₁ ++ [t])).c : ℚ) * cfVal (l₁ ++ t :: l₂) -
          ((cfMat (l₁ ++ [t])).a : ℚ)) ≤ 0 := by
    cases l₂ with
    | nil =>
      have hC'pos : 0 < (cfMat (l₁ ++ [t])).c := lt_of_le_of_lt (Nat.zero_le q) hqlt
      have hC'Q : ((cfMat (l₁ ++ [t])).c : ℚ) ≠ 0 := Nat.cast_ne_zero.mpr (by omega)
      have hx : cfVal (l₁ ++ [t]) =
          ((cfMat (l₁ ++ [t])).a : ℚ) / ((cfMat (l₁ ++ [t])).c : ℚ) :=
        cfVal_eq_div _ (by simp) htail'
      have hzero : ((cfMat (l₁ ++ [t])).c : ℚ) * cfVal (l₁ ++ [t]) -
          ((cfMat (l₁ ++ [t])).a : ℚ) = 0 := by
        rw [hx]
        field_simp
      rw [show l₁ ++ t :: ([] : List ℕ) = l₁ ++ [t] from rfl, hzero, mul_zero]
    | cons u r₂ =>
      have happ : (l₁ ++ [t]) ++ (u :: r₂) = l₁ ++ t :: u :: r₂ := by
        rw [List.append_assoc]
        rfl
      have hpos₂ : ∀ v ∈ u :: r₂, 1 ≤ v := fun v hv => h₂ v (List.mem_cons_of_mem t hv)
      have hs' := conv_sub_formula (l₁ ++ [t]) htail' (u :: r₂)
        (List.cons_ne_nil u r₂) hpos₂
      rw [happ] at hs'
      have hlen : (l₁ ++ [t]).length = l₁.length + 1 := by simp
      rw [hlen] at hs'
      have hy₁ : 1 ≤ cfVal (t :: u :: r₂) :=
        cfVal_one_le _ h₂ (List.cons_ne_nil t (u :: r₂))
      have hy₂ : 1 ≤ cfVal (u :: r₂) :=
        cfVal_one_le _ hpos₂ (List.cons_ne_nil u r₂)
      have hP₁ : (0 : ℚ) < ((cfMat l₁).c : ℚ) * cfVal (t :: u :: r₂) +
          ((cfMat l₁).d : ℚ) := cfVal_split_den_pos l₁ h₁ _ hy₁
      have hP₂ : (0 : ℚ) < ((cfMat (l₁ ++ [t])).c : ℚ) * cfVal (u :: r₂) +
          ((cfMat (l₁ ++ [t])).d : ℚ) := cfVal_split_den_pos (l₁ ++ [t]) htail' _ hy₂
      rw [hs, hs']
      rw [div_mul_div_comm]
      have hpow : ((-1 : ℚ)) ^ (l₁.length + 1) * (-1) ^ (l₁.length + 1 + 1) = -1 := by
        rw [← pow_add]
        rw [show l₁.length + 1 + (l₁.length + 1 + 1) = 2 * (l₁.length + 1) + 1 by ring]
        rw [pow_succ, pow_mul]
        norm_num
      rw [hpow]
      exact le_of_lt (div_neg_of_neg_of_pos (by norm_num) (mul_pos hP₁ hP₂))
  have := key_estimate_core ((cfMat l₁).a : ℤ) ((cfMat (l₁ ++ [t])).a : ℤ)
    ((cfMat l₁).c : ℤ) ((cfMat (l₁ ++ [t])).c : ℤ) p (q : ℤ) ((-1) ^ l₁.length)
    (cfVal (l₁ ++ t :: l₂))
    (((cfMat l₁).c : ℚ) * cfVal (l₁ ++ t :: l₂) - ((cfMat l₁).a : ℚ))
    (((cfMat (l₁ ++ [t])).c : ℚ) * cfVal (l₁ ++ t :: l₂) -
      ((cfMat (l₁ ++ [t])).a : ℚ))
    hε hdet hsQ hs'Q hsign hCnn hq1 hqlt'
  calc |((cfMat l₁).c : ℚ) * cfVal (l₁ ++ t :: l₂) - ((cfMat l₁).a : ℚ)| ≤
      |((q : ℤ) : ℚ) * cfVal (l₁ ++ t :: l₂) - (p : ℚ)| := this
    _ = |(q : ℚ) * cfVal (l₁ ++ t :: l₂) - (p : ℚ)| := by push_cast; ring_nf

/-! ### The prefix the algorithm consumes -/

theorem takeDen_append_dropDen :
    ∀ (l : List ℕ) (e f m : ℕ), takeDen e f m l ++ dropDen e f m l = l := by
  intro l
  induction l with
  | nil => intro e f m; rfl
  | cons t r ih =>
    intro e f m
    by_cases h : m < f + t * e
    · simp [takeDen, dropDen, h]
    · simp [takeDen, dropDen, h, ih]

theorem takeDen_subset :
    ∀ (l : List ℕ) (e f m : ℕ), ∀ u ∈ takeDen e f m l, u ∈ l := by
  intro l
  induction l with
  | nil => intro e f m u hu; exact absurd hu (List.not_mem_nil u)
  | cons t r ih =>
    intro e f m u hu
    by_cases h : m < f + t * e
    · rw [takeDen, if_pos h] at hu
      exact absurd hu (List.not_mem_nil u)
    · rw [takeDen, if_neg h] at hu
      rcases List.mem_cons.mp hu with h' | h'
      · exact h' ▸ List.mem_cons_self t r
      · exact List.mem_cons_of_mem t (ih _ _ _ u h')

theorem dropDen_subset :
    ∀ (l : List ℕ) (e f m : ℕ), ∀ u ∈ dropDen e f m l, u ∈ l := by
  intro l
  induction l with
  | nil => intro e f m u hu; exact absurd hu (List.not_mem_nil u)
  | cons t r ih =>
    intro e f m u hu
    by_cases h : m < f + t * e
    · rw [dropDen, if_pos h] at hu
      exact hu
    · rw [dropDen, if_neg h] at hu
      exact List.mem_cons_of_mem t (ih _ _ _ u hu)

theorem takeDen_den_le :
    ∀ (l : List ℕ) (e f m : ℕ), e ≤ m → f ≤ m →
      e * (cfMat (takeDen e f m l)).a + f * (cfMat (takeDen e f m l)).c ≤ m := by
  intro l
  induction l with
  | nil =>
    intro e f m he hf
    simp [takeDen, cfMat]
    omega
  | cons t r ih =>
    intro e f m he hf
    by_cases h : m < f + t * e
    · rw [takeDen, if_pos h]
      simp [cfMat]
      omega
    · rw [takeDen, if_neg h]
      rw [cfMat_cons]
      dsimp only
      have hrec := ih (f + t * e) e m (by omega) he
      have heq :
          e * (t * (cfMat (takeDen (f + t * e) e m r)).a +
              (cfMat (takeDen (f + t * e) e m r)).c) +
            f * (cfMat (takeDen (f + t * e) e m r)).a =
          (f + t * e) * (cfMat (takeDen (f + t * e) e m r)).a +
            e * (cfMat (takeDen (f + t * e) e m r)).c := by ring
      rw [heq]
      exact hrec

theorem takeDen_next_den :
    ∀ (l : List ℕ) (e f m t : ℕ) (l₂ : List ℕ), e ≤ m → f ≤ m →
      dropDen e f m l = t :: l₂ →
      m < e * (cfMat (takeDen e f m l ++ [t])).a +
        f * (cfMat (takeDen e f m l ++ [t])).c := by
  intro l
  induction l with
  | nil =>
    intro e f m t l₂ _ _ hdrop
    exact absurd hdrop (by simp [dropDen])
  | cons u r ih =>
    intro e f m t l₂ he hf hdrop
    by_cases h : m < f + u * e
    · rw [dropDen, if_pos h] at hdrop
      injection hdrop with h1 h2
      subst h1
      subst h2
      rw [takeDen, if_pos h]
      simp only [List.nil_append]
      rw [show cfMat [u] = ⟨u, 1, 1, 0⟩ from by simp [cfMat, CFMat.mul, termMat]]
      dsimp only
      rw [show e * u + f * 1 = f + u * e from by ring]
      exact h
    · rw [dropDen, if_neg h] at hdrop
      rw [takeDen, if_neg h, List.cons_append, cfMat_cons]
      dsimp only
      have hrec := ih (f + u * e) e m t l₂ (by omega) he hdrop
      have heq :
          e * (u * (cfMat (takeDen (f + u * e) e m r ++ [t])).a +
              (cfMat (takeDen (f + u * e) e m r ++ [t])).c) +
            f * (cfMat (takeDen (f + u * e) e m r ++ [t])).a =
          (f + u * e) * (cfMat (takeDen (f + u * e) e m r ++ [t])).a +
            e * (cfMat (takeDen (f + u * e) e m r ++ [t])).c := by ring
      rw [heq]
      exact hrec

theorem takeDen_mono :
    ∀ (l : List ℕ) (e f m m' : ℕ), m ≤ m' →
      ∃ ext, takeDen e f m' l = takeDen e f m l ++ ext := by
  intro l
  induction l with
  | nil => intro e f m m' _; exact ⟨[], rfl⟩
  | cons t r ih =>
    intro e f m m' hmm
    by_cases h : m < f + t * e
    · refine ⟨takeDen e f m' (t :: r), ?_⟩
      conv_rhs => rw [takeDen]
      rw [if_pos h, List.nil_append]
    · have h' : ¬ m' < f + t * e := by omega
      obtain ⟨ext, hext⟩ := ih (f + t * e) e m m' hmm
      refine ⟨ext, ?_⟩
      rw [takeDen, if_neg h']
      conv_rhs => rw [takeDen]
      rw [if_neg h, hext, List.cons_append]

/-! ### The algorithm returns the continuants of the consumed prefix -/

/-- `Support.continuedFraction` computes exactly the numerator/denominator
continuants of the prefix of the Euclidean term list whose running
denominators stay within the cap. -/
theorem cf_eq_cfMat_takeDen :
    ∀ b a e f m : ℕ, 1 ≤ b → f + a / b * e ≤ m →
      Support.continuedFraction a b e f m =
        ((cfMat (takeDen e f m (cfTerms a b))).a,
          (cfMat (takeDen e f m (cfTerms a b))).c) := by
  intro b
  induction b using Nat.strong_induction_on with
  | _ b ih =>
    intro a e f m hb hden
    have hb0 : b ≠ 0 := by omega
    rw [Support.continuedFraction_unfold a b e f m hb, if_neg (not_lt.mpr hden)]
    rw [cfTerms_eq_cons a b hb0, takeDen, if_neg (not_lt.mpr hden)]
    by_cases hmod : a % b = 0
    · rw [if_pos hmod, if_pos hmod]
      simp [takeDen, cfMat, CFMat.mul, termMat]
    · rw [if_neg hmod, if_neg hmod]
      have hmodpos : 1 ≤ a % b := by omega
      have hmodlt : a % b < b := Nat.mod_lt _ (by omega)
      by_cases h₂ : e + b / (a % b) * (f + a / b * e) ≤ m
      · have hrec := ih (a % b) hmodlt b (f + a / b * e) e m hmodpos h₂
        rw [hrec, cfMat_cons]
      · have hcf₂ :
            Support.continuedFraction b (a % b) (f + a / b * e) e m = (1, 0) := by
          rw [Support.continuedFraction_unfold b (a % b) (f + a / b * e) e m hmodpos]
          rw [if_pos (not_le.mp h₂)]
        have hT₂ : takeDen (f + a / b * e) e m (cfTerms b (a % b)) = [] := by
          rw [cfTerms_eq_cons b (a % b) (by omega), takeDen, if_pos (not_le.mp h₂)]
        rw [hcf₂, hT₂]
        simp [cfMat, CFMat.mul, termMat]

/-! ### Assembly: NearestFraction facts -/

theorem ifTerms_pos (a b : ℕ) (hb : b ≠ 0) :
    ∀ u ∈ (if a % b = 0 then [] else cfTerms b (a % b)), 1 ≤ u := by
  intro u hu
  by_cases hmod : a % b = 0
  · rw [if_pos hmod] at hu
    exact absurd hu (List.not_mem_nil u)
  · rw [if_neg hmod] at hu
    exact cfTerms_all_pos (a % b) b hmod
      (le_of_lt (Nat.mod_lt _ (Nat.pos_of_ne_zero hb))) u hu

theorem takeDen_head (a b m : ℕ) (hb : b ≠ 0) (hm : 1 ≤ m) :
    takeDen 0 1 m (cfTerms a b) =
      a / b :: takeDen (1 + a / b * 0) 0 m
        (if a % b = 0 then [] else cfTerms b (a % b)) := by
  rw [cfTerms_eq_cons a b hb, takeDen, if_neg (by simp; omega)]

theorem takeDen_tail_pos (a b m : ℕ) (hb : b ≠ 0) (hm : 1 ≤ m) :
    ∀ u ∈ (takeDen 0 1 m (cfTerms a b)).tail, 1 ≤ u := by
  rw [takeDen_head a b m hb hm, List.tail_cons]
  exact fun u hu => ifTerms_pos a b hb u (takeDen_subset _ _ _ _ u hu)

theorem NF_d_pos (a b m : ℕ) (hb : b ≠ 0) (hm : 1 ≤ m) :
    1 ≤ (cfMat (takeDen 0 1 m (cfTerms a b))).c := by
  rw [takeDen_head a b m hb hm, cfMat_cons]
  dsimp only
  exact cfMat_a_pos _ (fun u hu => ifTerms_pos a b hb u (takeDen_subset _ _ _ _ u hu))

/-- Components of `NearestFraction` as continuants of the consumed prefix. -/
theorem NF_fst (a b m : ℕ) (hb : 1 ≤ b) (hm : 1 ≤ m) :
    (Support.NearestFraction a b m).1 =
      (cfMat (takeDen 0 1 m (cfTerms a b))).a := by
  show (Support.continuedFraction a b 0 1 m).1 = _
  rw [cf_eq_cfMat_takeDen b a 0 1 m hb (by simpa using hm)]

theorem NF_snd (a b m : ℕ) (hb : 1 ≤ b) (hm : 1 ≤ m) :
    (Support.NearestFraction a b m).2.1 =
      (cfMat (takeDen 0 1 m (cfTerms a b))).c := by
  show (Support.continuedFraction a b 0 1 m).2 = _
  rw [cf_eq_cfMat_takeDen b a 0 1 m hb (by simpa using hm)]

/-- The best-approximation content of the amended C2: the returned
denominator is within the cap, and no fraction with a denominator at most
the returned one is strictly closer to `a / b`. -/
theorem NF_best (a b m : ℕ) (hb : 1 ≤ b) (hm : 1 ≤ m) :
    1 ≤ (Support.NearestFraction a b m).2.1 ∧
    (Support.NearestFraction a b m).2.1 ≤ m ∧
    ∀ (p : ℤ) (q : ℕ), 1 ≤ q → q ≤ (Support.NearestFraction a b m).2.1 →
      |(a : ℚ) / (b : ℚ) -
          ((Support.NearestFraction a b m).1 : ℚ) /
            ((Support.NearestFraction a b m).2.1 : ℚ)| ≤
        |(a : ℚ) / (b : ℚ) - (p : ℚ) / (q : ℚ)| := by
  have hb0 : b ≠ 0 := by omega
  have hden0 : 1 + a / b * 0 ≤ m := by simpa using hm
  refine ⟨?_, ?_, ?_⟩
  · rw [NF_snd a b m hb hm]
    exact NF_d_pos a b m hb0 hm
  · rw [NF_snd a b m hb hm]
    have h := takeDen_den_le (cfTerms a b) 0 1 m (by omega) hm
    simpa using h
  · intro p q hq1 hqd
    rw [NF_fst a b m hb hm, NF_snd a b m hb hm]
    rw [NF_snd a b m hb hm] at hqd
    have hx : cfVal (cfTerms a b) = (a : ℚ) / (b : ℚ) := cfVal_cfTerms b a hb0
    have hd1 : 1 ≤ (cfMat (takeDen 0 1 m (cfTerms a b))).c := NF_d_pos a b m hb0 hm
    have hdQ : (0 : ℚ) < ((cfMat (takeDen 0 1 m (cfTerms a b))).c : ℚ) :=
      Nat.cast_pos.mpr (by omega)
    have hqQ : (0 : ℚ) < (q : ℚ) := Nat.cast_pos.mpr (by omega)
    have hqdQ : (q : ℚ) ≤ ((cfMat (takeDen 0 1 m (cfTerms a b))).c : ℚ) := by
      exact_mod_cast hqd
    rcases hdropE : dropDen 0 1 m (cfTerms a b) with _ | ⟨t, l₂⟩
    · -- the expansion was consumed whole: the result is exact
      have hfull : takeDen 0 1 m (cfTerms a b) = cfTerms a b := by
        have h := takeDen_append_dropDen (cfTerms a b) 0 1 m
        rw [hdropE, List.append_nil] at h
        exact h
      have hcd :
          ((cfMat (takeDen 0 1 m (cfTerms a b))).a : ℚ) /
            ((cfMat (takeDen 0 1 m (cfTerms a b))).c : ℚ) = (a : ℚ) / (b : ℚ) := by
        rw [hfull, ← cfVal_eq_div (cfTerms a b)
          (by rw [cfTerms_eq_cons a b hb0]; exact List.cons_ne_nil _ _)
          (cfTerms_tail_pos a b hb0), hx]
      rw [hcd, sub_self, abs_zero]
      exact abs_nonneg _
    · -- truncated: use the key estimate
      have hsplit : takeDen 0 1 m (cfTerms a b) ++ t :: l₂ = cfTerms a b := by
        have h := takeDen_append_dropDen (cfTerms a b) 0 1 m
        rw [hdropE] at h
        exact h
      have hnext := takeDen_next_den (cfTerms a b) 0 1 m t l₂ (by omega) hm hdropE
      have hnext' : m < (cfMat (takeDen 0 1 m (cfTerms a b) ++ [t])).c := by
        simpa using hnext
      have hdm : (cfMat (takeDen 0 1 m (cfTerms a b))).c ≤ m := by
        have h := takeDen_den_le (cfTerms a b) 0 1 m (by omega) hm
        simpa using h
      have hqlt : q < (cfMat (takeDen 0 1 m (cfTerms a b) ++ [t])).c := by omega
      have hdrop_pos : ∀ u ∈ t :: l₂, 1 ≤ u := by
        rw [cfTerms_eq_cons a b hb0, dropDen, if_neg (by simp; omega)] at hdropE
        intro u hu
        rw [← hdropE] at hu
        exact ifTerms_pos a b hb0 u (dropDen_subset _ _ _ _ u hu)
      have hkey := key_estimate (takeDen 0 1 m (cfTerms a b)) t l₂
        (takeDen_tail_pos a b m hb0 hm) hdrop_pos p q hq1 hqlt
      rw [hsplit, hx] at hkey
      have h1 : (a : ℚ) / (b : ℚ) -
          ((cfMat (takeDen 0 1 m (cfTerms a b))).a : ℚ) /
            ((cfMat (takeDen 0 1 m (cfTerms a b))).c : ℚ) =
          (((cfMat (takeDen 0 1 m (cfTerms a b))).c : ℚ) * ((a : ℚ) / (b : ℚ)) -
              ((cfMat (takeDen 0 1 m (cfTerms a b))).a : ℚ)) /
            ((cfMat (takeDen 0 1 m (cfTerms a b))).c : ℚ) := by
        field_simp
        ring
      have h2 : (a : ℚ) / (b : ℚ) - (p : ℚ) / (q : ℚ) =
          ((q : ℚ) * ((a : ℚ) / (b : ℚ)) - (p : ℚ)) / (q : ℚ) := by
        field_simp
        ring
      rw [h1, h2, abs_div, abs_div, abs_of_pos hdQ, abs_of_pos hqQ]
      calc |((cfMat (takeDen 0 1 m (cfTerms a b))).c : ℚ) * ((a : ℚ) / (b : ℚ)) -
            ((cfMat (takeDen 0 1 m (cfTerms a b))).a : ℚ)| /
            ((cfMat (takeDen 0 1 m (cfTerms a b))).c : ℚ) ≤
          |(q : ℚ) * ((a : ℚ) / (b : ℚ)) - (p : ℚ)| /
            ((cfMat (takeDen 0 1 m (cfTerms a b))).c : ℚ) :=
            (div_le_div_right hdQ).mpr hkey
        _ ≤ |(q : ℚ) * ((a : ℚ) / (b : ℚ)) - (p : ℚ)| / (q : ℚ) :=
            div_le_div_of_nonneg_left (abs_nonneg _) hqQ hqdQ

/-- Monotonicity of the achieved error in the denominator cap. -/
theorem NF_err_mono (a b m m' : ℕ) (hb : 1 ≤ b) (hm : 1 ≤ m) (hmm : m ≤ m') :
    |(Support.NearestFraction a b m').2.2| ≤ |(Support.NearestFraction a b m).2.2| := by
  have hb0 : b ≠ 0 := by omega
  have hm' : 1 ≤ m' := le_trans hm hmm
  obtain ⟨ext, hext⟩ := takeDen_mono
    (if a % b = 0 then [] else cfTerms b (a % b)) (1 + a / b * 0) 0 m m' hmm
  have hextpos : ∀ u ∈ ext, 1 ≤ u := by
    intro u hu
    have h1 : u ∈ takeDen (1 + a / b * 0) 0 m'
        (if a % b = 0 then [] else cfTerms b (a % b)) := by
      rw [hext]
      exact List.mem_append_right _ hu
    exact ifTerms_pos a b hb0 u (takeDen_subset _ _ _ _ u h1)
  have hdd' : (cfMat (takeDen 0 1 m (cfTerms a b))).c ≤
      (cfMat (takeDen 0 1 m' (cfTerms a b))).c := by
    rw [takeDen_head a b m hb0 hm, takeDen_head a b m' hb0 hm',
      cfMat_cons, cfMat_cons]
    dsimp only
    rw [hext]
    exact cfMat_a_mono ext hextpos _
  have hqd' : (Support.NearestFraction a b m).2.1 ≤
      (Support.NearestFraction a b m').2.1 := by
    rw [NF_snd a b m hb hm, NF_snd a b m' hb hm']
    exact hdd'
  have hd1 : 1 ≤ (Support.NearestFraction a b m).2.1 := (NF_best a b m hb hm).1
  have hbest := (NF_best a b m' hb hm').2.2
    ((Support.NearestFraction a b m).1 : ℤ) (Support.NearestFraction a b m).2.1
    hd1 hqd'
  have heq : (((Support.NearestFraction a b m).1 : ℤ) : ℚ) =
      ((Support.NearestFraction a b m).1 : ℚ) := by push_cast; rfl
  rw [heq] at hbest
  exact hbest

end CF

/-! ### Claim C1 -/

/-- C1: for every scale and all words with `hi2 ∈ {hi1, hi1+1}`,
`support.ReduceObservation` returns `hi1*scale + lo1` when `hi1 = hi2`, and
when `hi1 ≠ hi2` returns `hi2*scale + lo1` for `lo1 < lo2` and
`hi1*scale + lo1` for `lo1 ≥ lo2`; in particular the three specific vectors
of the spec evaluate as stated. -/
theorem C1_reduce_observation_decision_table :
    (∀ scale hi1 lo1 hi2 lo2 : ℕ, hi2 = hi1 ∨ hi2 = hi1 + 1 →
      (hi1 = hi2 →
        Support.ReduceObservation scale hi1 lo1 hi2 lo2 = hi1 * scale + lo1) ∧
      (hi1 ≠ hi2 →
        (lo1 < lo2 →
          Support.ReduceObservation scale hi1 lo1 hi2 lo2 = hi2 * scale + lo1) ∧
        (lo2 ≤ lo1 →
          Support.ReduceObservation scale hi1 lo1 hi2 lo2 = hi1 * scale + lo1))) ∧
    Support.ReduceObservation 65536 100 40 100 45 = 100 * 65536 + 40 ∧
    Support.ReduceObservation 65536 100 65525 101 45 = 100 * 65536 + 65525 ∧
    Support.ReduceObservation 65536 100 40 101 45 = 101 * 65536 + 40 := by
  refine ⟨fun scale hi1 lo1 hi2 lo2 _ => ⟨fun h => ?_, fun h => ⟨fun h' => ?_, fun h' => ?_⟩⟩,
    by decide, by decide, by decide⟩
  · simp [Support.ReduceObservation, h]
  · simp [Support.ReduceObservation, h, h']
  · simp [Support.ReduceObservation, h, Nat.not_lt.mpr h']

/-- Witness for C1 at a concrete input with `hi2 = hi1 + 1` and
`lo1 ≥ lo2`. -/
theorem C1_reduce_observation_decision_table_witness :
    Support.ReduceObservation 65536 100 65525 101 45 = 100 * 65536 + 65525 :=
  ((C1_reduce_observation_decision_table.1 65536 100 65525 101 45
    (Or.inr rfl)).2 (by decide)).2 (by decide)

/-! ### Claim C10 -/

/-- C10 counterexample: inside the claimed domain `th2 ∈ {th1, th1+1}`, the
local `ReduceObservation` of src/src/wspr/mtime.go disagrees with the
SampleReducer `support.ReduceObservation`: at
`(scale, th1, tl1, th2, tl2) = (0x10000, 100, 0xfff5, 101, 45)` the local
one pairs the second reads and yields `101*scale + 45`, while the
SampleReducer yields `100*scale + 0xfff5`. -/
theorem C10_mtime_reducer_counterexample :
    ((101 : ℕ) = 100 ∨ (101 : ℕ) = 100 + 1) ∧
    Mtime.ReduceObservation 65536 100 65525 101 45 = 101 * 65536 + 45 ∧
    Support.ReduceObservation 65536 100 65525 101 45 = 100 * 65536 + 65525 ∧
    Mtime.ReduceObservation 65536 100 65525 101 45 ≠
      Support.ReduceObservation 65536 100 65525 101 45 := by
  refine ⟨Or.inr rfl, by decide, by decide, by decide⟩

/-- C10 amended: the local `ReduceObservation` that `MicroTime` calls
returns `th1*scale + tl1` when `th1 = th2`, agreeing there with the
SampleReducer `support.ReduceObservation`; but when `th1 ≠ th2` it returns
`th2*scale + tl2`, pairing the second low read with the second high read,
which is not the SampleReducer decision rule. -/
theorem C10_mtime_reducer_vs_sample_reducer :
    (∀ scale th1 tl1 th2 tl2 : ℕ,
      Mtime.ReduceObservation scale th1 tl1 th2 tl2 =
        if th1 = th2 then th1 * scale + tl1 else th2 * scale + tl2) ∧
    (∀ scale th1 tl1 th2 tl2 : ℕ, th1 = th2 →
      Mtime.ReduceObservation scale th1 tl1 th2 tl2 =
        Support.ReduceObservation scale th1 tl1 th2 tl2) := by
  constructor
  · intro scale th1 tl1 th2 tl2
    rfl
  · intro scale th1 tl1 th2 tl2 h
    simp [Mtime.ReduceObservation, Support.ReduceObservation, h]

/-- Witness for C10 at a concrete input with `th1 = th2`. -/
theorem C10_mtime_reducer_vs_sample_reducer_witness :
    Mtime.ReduceObservation 65536 100 40 100 45 =
      Support.ReduceObservation 65536 100 40 100 45 :=
  C10_mtime_reducer_vs_sample_reducer.2 65536 100 40 100 45 rfl

/-! ### Claim C3 -/

/-- C3: `NearestFraction` invokes `continuedFraction` with initial
accumulators `e = 0`, `f = 1`, and for every `a`, `b ≥ 1`, `e`, `f` the
recursion computes `term = a / b` and `denom = f + term * e`, returns the
sentinel `(1, 0)` if `denom > maxDenominator`, returns `(term, 1)` if
`a % b = 0`, and otherwise returns `(term * cx + dx, cx)` where `(cx, dx)`
is the recursive value on `(b, a % b)` with accumulators `(denom, e)`.
Termination for every such input is witnessed by the fact that the
embedding is a total Lean function whose fuel is irrelevant beyond `b`
(`cfAux_congr`), the Euclidean argument strictly decreasing. -/
theorem C3_continued_fraction_step :
    (∀ a b m : ℕ,
      (Support.NearestFraction a b m).1 = (Support.continuedFraction a b 0 1 m).1 ∧
      (Support.NearestFraction a b m).2.1 = (Support.continuedFraction a b 0 1 m).2) ∧
    (∀ a b e f m : ℕ, 1 ≤ b →
      Support.continuedFraction a b e f m =
        if m < f + a / b * e then (1, 0)
        else if a % b = 0 then (a / b, 1)
        else
          (a / b * (Support.continuedFraction b (a % b) (f + a / b * e) e m).1 +
              (Support.continuedFraction b (a % b) (f + a / b * e) e m).2,
            (Support.continuedFraction b (a % b) (f + a / b * e) e m).1)) :=
  ⟨fun _ _ _ => ⟨rfl, rfl⟩, Support.continuedFraction_unfold⟩

/-- Witness for C3: the step equation evaluated at `a = 23`, `b = 5`,
`e = 0`, `f = 1`, `m = 10` (one of the test vectors of the repository). -/
theorem C3_continued_fraction_step_witness :
    Support.continuedFraction 23 5 0 1 10 =
      if 10 < 1 + 23 / 5 * 0 then (1, 0)
      else if 23 % 5 = 0 then (23 / 5, 1)
      else
        (23 / 5 * (Support.continuedFraction 5 (23 % 5) (1 + 23 / 5 * 0) 0 10).1 +
            (Support.continuedFraction 5 (23 % 5) (1 + 23 / 5 * 0) 0 10).2,
          (Support.continuedFraction 5 (23 % 5) (1 + 23 / 5 * 0) 0 10).1) :=
  C3_continued_fraction_step.2 23 5 0 1 10 (by decide)

/-! ### Claim C2 -/

/-- C2 counterexample: the claim as stated fails.  `NearestFraction 4 5 3`
returns `c/d = 1/1`, yet the fraction `2/3`, whose denominator `3` is within
the bound `maxDenominator = 3`, is strictly closer to `4/5`
(`|4/5 - 2/3| = 2/15 < 1/5 = |4/5 - 1/1|`).  The algorithm returns
convergents only, and semiconvergents with admissible denominators can
approximate better. -/
theorem C2_nearest_fraction_counterexample :
    (Support.NearestFraction 4 5 3).1 = 1 ∧
    (Support.NearestFraction 4 5 3).2.1 = 1 ∧
    (3 : ℕ) ≤ 3 ∧
    |(4 : ℚ) / 5 - (2 : ℚ) / 3| <
      |(4 : ℚ) / 5 - ((Support.NearestFraction 4 5 3).1 : ℚ) /
        ((Support.NearestFraction 4 5 3).2.1 : ℚ)| := by
  refine ⟨by decide, by decide, le_rfl, ?_⟩
  rw [show (Support.NearestFraction 4 5 3).1 = 1 from by decide,
    show (Support.NearestFraction 4 5 3).2.1 = 1 from by decide]
  push_cast
  rw [show |(4 : ℚ) / 5 - 2 / 3| = 2 / 15 from by rw [abs_of_pos (by norm_num)]; norm_num,
    show |(4 : ℚ) / 5 - 1 / 1| = 1 / 5 from by rw [abs_of_neg (by norm_num)]; norm_num]
  norm_num

/-- C2 amended: for `a ≥ 0`, `b ≥ 1`, `maxDenominator ≥ 1`,
`NearestFraction a b maxDenominator` returns `(c, d)` with
`1 ≤ d ≤ maxDenominator` such that no fraction with denominator at most the
achieved `d` (not: at most `maxDenominator`) is strictly closer to `a/b`,
and for fixed `a`, `b` the achieved absolute error is monotone non-increasing
as `maxDenominator` increases. -/
theorem C2_nearest_fraction_best_for_achieved_denominator :
    ∀ a b m : ℕ, 1 ≤ b → 1 ≤ m →
      1 ≤ (Support.NearestFraction a b m).2.1 ∧
      (Support.NearestFraction a b m).2.1 ≤ m ∧
      (∀ (p : ℤ) (q : ℕ), 1 ≤ q → q ≤ (Support.NearestFraction a b m).2.1 →
        |(a : ℚ) / (b : ℚ) -
            ((Support.NearestFraction a b m).1 : ℚ) /
              ((Support.NearestFraction a b m).2.1 : ℚ)| ≤
          |(a : ℚ) / (b : ℚ) - (p : ℚ) / (q : ℚ)|) ∧
      (∀ m' : ℕ, m ≤ m' →
        |(Support.NearestFraction a b m').2.2| ≤
          |(Support.NearestFraction a b m).2.2|) := by
  intro a b m hb hm
  obtain ⟨h1, h2, h3⟩ := CF.NF_best a b m hb hm
  exact ⟨h1, h2, h3, fun m' hmm => CF.NF_err_mono a b m m' hb hm hmm⟩

/-- Witness for C2 at `a = 314159265358`, `b = 100000000000`, `m = 110`
(the repository's pi test vector): the theorem applies and, concretely, the
returned fraction is `355/113` with its optimality over denominators up to
`113` instantiated at `333/106`. -/
theorem C2_nearest_fraction_best_for_achieved_denominator_witness :
    1 ≤ (Support.NearestFraction 314159265358 100000000000 113).2.1 ∧
    (Support.NearestFraction 314159265358 100000000000 113).2.1 ≤ 113 ∧
    |(314159265358 : ℚ) / (100000000000 : ℚ) -
        ((Support.NearestFraction 314159265358 100000000000 113).1 : ℚ) /
          ((Support.NearestFraction 314159265358 100000000000 113).2.1 : ℚ)| ≤
      |(314159265358 : ℚ) / (100000000000 : ℚ) - (333 : ℚ) / (106 : ℚ)| ∧
    |(Support.NearestFraction 314159265358 100000000000 200).2.2| ≤
      |(Support.NearestFraction 314159265358 100000000000 113).2.2| := by
  obtain ⟨h1, h2, h3, h4⟩ :=
    C2_nearest_fraction_best_for_achieved_denominator 314159265358 100000000000 113
      (by decide) (by decide)
  refine ⟨h1, h2, ?_, h4 200 (by decide)⟩
  have h106 : (106 : ℕ) ≤ (Support.NearestFraction 314159265358 100000000000 113).2.1 := by
    rw [show (Support.NearestFraction 314159265358 100000000000 113).2.1 = 113 from by decide]
    decide
  simpa using h3 333 106 (by decide) h106

/-! ### Claim C4 -/

/-- C4: `NearestFraction (k*n) n m = (k, 1, 0)` for positive `k`, `n` and any
`m ≥ 1`; moreover `NearestFraction 0 b m = (0, 1, 0)` and
`NearestFraction a 1 m = (a, 1, 0)`.  The float error component is modelled
exactly as the rational `a/b - c/d`, which vanishes in all three cases. -/
theorem C4_exact_division :
    (∀ k n m : ℕ, 1 ≤ k → 1 ≤ n → 1 ≤ m →
      Support.NearestFraction (k * n) n m = (k, 1, 0)) ∧
    (∀ b m : ℕ, 1 ≤ b → 1 ≤ m → Support.NearestFraction 0 b m = (0, 1, 0)) ∧
    (∀ a m : ℕ, 1 ≤ m → Support.NearestFraction a 1 m = (a, 1, 0)) := by
  have base : ∀ a b m : ℕ, 1 ≤ b → 1 ≤ m → b ∣ a →
      Support.NearestFraction a b m = (a / b, 1, 0) := by
    intro a b m hb hm hdvd
    have hmod : a % b = 0 := Nat.dvd_iff_mod_eq_zero.mp hdvd
    have hcf : Support.continuedFraction a b 0 1 m = (a / b, 1) := by
      rw [Support.continuedFraction_unfold a b 0 1 m hb, if_neg (by omega), if_pos hmod]
    have hcast : ((a / b : ℕ) : ℚ) = (a : ℚ) / (b : ℚ) :=
      Nat.cast_div hdvd (by exact_mod_cast (by omega : b ≠ 0))
    simp [Support.NearestFraction, hcf, hcast]
  refine ⟨fun k n m hk hn hm => ?_, fun b m hb hm => ?_, fun a m hm => ?_⟩
  · have := base (k * n) n m hn hm (dvd_mul_left n k)
    rwa [Nat.mul_div_cancel _ hn] at this
  · have := base 0 b m hb hm (dvd_zero b)
    rwa [Nat.zero_div] at this
  · have := base a 1 m le_rfl hm (one_dvd a)
    rwa [Nat.div_one] at this

/-- Witness for C4 at `k = 3879`, `n = 1712`, `m = 20` (the exact-division
test vector of the repository), plus the two edge cases at concrete
inputs. -/
theorem C4_exact_division_witness :
    Support.NearestFraction (3879 * 1712) 1712 20 = (3879, 1, 0) ∧
    Support.NearestFraction 0 7 5 = (0, 1, 0) ∧
    Support.NearestFraction 10 1 100 = (10, 1, 0) :=
  ⟨C4_exact_division.1 3879 1712 20 (by decide) (by decide) (by decide),
    C4_exact_division.2.1 7 5 (by decide) (by decide),
    C4_exact_division.2.2 10 100 (by decide)⟩


/-! ### Claim C5 -/

/-- C5: the Go code of observation.go line 155 tests
`math.Abs(r.eps)/f > 1e-12` while `r.eps` still holds its zero value
(`eps` is assigned only on line 158), so the consistency check can never
fire.  At `(f0, pll, f) = (10MHz, 0, 100kHz)` the call succeeds with
recomputed achieved frequency 400000 and returned `eps = 100000 - 400000`,
although the recomputed relative final error `|100000 - 400000| / 100000 = 3`
exceeds `1e-12` by twelve orders of magnitude. -/
theorem C5_eps_checked_before_assignment :
    Support.New 10000000 0 100000 =
      Except.ok ⟨10000000, 600000000, 400000, 60, 0, 1, 1500, 0, 1, 4, -300000⟩ ∧
    (-300000 : ℚ) = 100000 - 400000 ∧
    1 / 1000000000000 < |(100000 : ℚ) - 400000| / 100000 := by
  refine ⟨Support.New_r4_run, by norm_num, ?_⟩
  rw [show |(100000 : ℚ) - 400000| = 300000 from by
    rw [abs_of_neg (by norm_num)]; norm_num]
  norm_num

/-! ### Claim C6 -/

/-- C6: the claimed invariant fails whenever the output divider exceeds 1.
At `(f0, pll, f) = (10MHz, 0, 100kHz)` the solver returns `r = 4` and the
true chip output `f0 * (a0 + b0/c0) / ((a1 + b1/c1) * r)` is exactly the
100kHz target; but the stored achieved frequency field is 400000 (line 154
of observation.go omits the division by `r`) and `eps = -300000`, so the
relative error `|eps| / f = 3/4` is far beyond every documented bound. -/
theorem C6_invariant_fails_with_output_divider :
    Support.New 10000000 0 100000 =
      Except.ok ⟨10000000, 600000000, 400000, 60, 0, 1, 1500, 0, 1, 4, -300000⟩ ∧
    (10000000 : ℚ) * ((60 : ℚ) + 0 / 1) / (((1500 : ℚ) + 0 / 1) * 4) = 100000 ∧
    (⟨10000000, 600000000, 400000, 60, 0, 1, 1500, 0, 1, 4, -300000⟩ :
      Support.Si5351Config).f = 400000 ∧
    1 / 1000 <
      |(⟨10000000, 600000000, 400000, 60, 0, 1, 1500, 0, 1, 4, -300000⟩ :
          Support.Si5351Config).eps| /
        (⟨10000000, 600000000, 400000, 60, 0, 1, 1500, 0, 1, 4, -300000⟩ :
          Support.Si5351Config).f := by
  refine ⟨Support.New_r4_run, by norm_num, rfl, ?_⟩
  show (1 : ℚ) / 1000 < |(-300000 : ℚ)| / 400000
  rw [abs_of_neg (by norm_num)]
  norm_num

/-! ### Claim C7 -/

/-- C7 counterexample: at `(f0, pll, f) = (10MHz, 900MHz, 25MHz)` the
feedback ratio is exactly 90 — on the boundary, hence outside the open
interval `(15, 90)` — yet `New` succeeds instead of rejecting. -/
theorem C7_feedback_ratio_boundary_counterexample :
    Support.New 10000000 900000000 25000000 =
      Except.ok ⟨10000000, 900000000, 25000000, 90, 0, 1, 36, 0, 1, 1, 0⟩ ∧
    Support.chosenPll 900000000 25000000 / 10000000 = 90 :=
  ⟨Support.New_z90_run, by norm_num [Support.chosenPll]⟩

/-- C7 amended: the guards are the strict comparisons `z < 15` and
`z > 90`, so the accepted window is the closed interval `[15, 90]`: every
successful call has `15 ≤ z ≤ 90`, and every input with `z < 15` or
`z > 90` is rejected (never clamped); `z` exactly 15 or exactly 90 passes
the ratio guards. -/
theorem C7_feedback_ratio_closed_interval :
    (∀ (f0 pll f : ℚ) (cfg : Support.Si5351Config),
      Support.New f0 pll f = Except.ok cfg →
      15 ≤ Support.chosenPll pll f / f0 ∧ Support.chosenPll pll f / f0 ≤ 90) ∧
    (∀ f0 pll f : ℚ,
      (Support.chosenPll pll f / f0 < 15 ∨ 90 < Support.chosenPll pll f / f0) →
      ∀ cfg, Support.New f0 pll f ≠ Except.ok cfg) := by
  constructor
  · exact fun f0 pll f cfg h => Support.New_ok_ratio f0 pll f cfg h
  · intro f0 pll f h cfg hok
    obtain ⟨h1, h2⟩ := Support.New_ok_ratio f0 pll f cfg hok
    rcases h with h | h <;> linarith

/-- Witness for C7: the successful call at `(10MHz, 900MHz, 25MHz)` indeed
has its ratio inside the closed window. -/
theorem C7_feedback_ratio_closed_interval_witness :
    15 ≤ Support.chosenPll 900000000 25000000 / 10000000 ∧
      Support.chosenPll 900000000 25000000 / 10000000 ≤ 90 :=
  C7_feedback_ratio_closed_interval.1 10000000 900000000 25000000
    ⟨10000000, 900000000, 25000000, 90, 0, 1, 36, 0, 1, 1, 0⟩ Support.New_z90_run

/-! ### Claim C8 -/

/-- C8: `New` passes `1<<20 = 2^20` — not `2^20 - 1` — as the maximum
denominator to both `NearestFraction` invocations (observation.go lines 128
and 149), and the bound is attained: at `f0 = 10MHz`,
`pll = 2516582439999987/2^22` (an exact float64, about 600000009.54Hz) and
`f = 25MHz`, the call succeeds with `c0 = 1048576 = 2^20`, which exceeds
`2^20 - 1`, the largest value the 20-bit fractional field of the chip can
hold. -/
theorem C8_denominator_cap_is_two_pow_twenty :
    Support.New 10000000 (2516582439999987 / 4194304) 25000000 =
      Except.ok ⟨10000000, 2516582439999987 / 4194304, 4915200078125 / 196608,
        60, 1, 1048576, 24, 0, 1, 1, -78125 / 196608⟩ ∧
    2 ^ 20 - 1 <
      (⟨10000000, 2516582439999987 / 4194304, 4915200078125 / 196608,
        60, 1, 1048576, 24, 0, 1, 1, -78125 / 196608⟩ : Support.Si5351Config).c0 :=
  ⟨Support.New_c8_run, by norm_num⟩

/-! ### Claim C9 -/

/-- C9 counterexample: `New(25MHz, 0, 2300)` succeeds, although the claim
asserts an error for every `f < 2302Hz` with hint 0. -/
theorem C9_low_frequency_cutoff_counterexample :
    Support.New 25000000 0 2300 =
      Except.ok ⟨25000000, 600000000, 294400, 24, 0, 1, 2038, 1, 23, 128, -292100⟩ ∧
    (2300 : ℚ) < 2302 :=
  ⟨Support.New_2300_run, by norm_num⟩

/-- C9 amended: `New` returns an error (never a best-effort value) whenever
`f0` is outside `[10MHz, 27MHz]`; whenever `f > 200MHz`; whenever a nonzero
PLL hint lies outside `[600MHz, 900MHz]` and is not overridden by the
forced choices for `f ≥ 100MHz`; and, with `f0 = 25MHz` and hint 0,
whenever `0 < f < 600MHz / 2^18 ≈ 2288.8Hz` — the actual low-frequency
cutoff where the output-divider search exceeds `r = 128` (2302Hz is not the
boundary: `f = 2300Hz` succeeds). -/
theorem C9_out_of_range_rejection :
    (∀ f0 pll f : ℚ, (f0 < 10000000 ∨ 27000000 < f0) →
      ∀ cfg, Support.New f0 pll f ≠ Except.ok cfg) ∧
    (∀ f0 pll f : ℚ, 200000000 < f →
      ∀ cfg, Support.New f0 pll f ≠ Except.ok cfg) ∧
    (∀ f0 pll f : ℚ, pll ≠ 0 → (pll < 600000000 ∨ 900000000 < pll) →
      f < 100000000 → ∀ cfg, Support.New f0 pll f ≠ Except.ok cfg) ∧
    (∀ f : ℚ, 0 < f → f * 262144 < 600000000 →
      ∀ cfg, Support.New 25000000 0 f ≠ Except.ok cfg) :=
  ⟨Support.New_f0_err, Support.New_fhigh_err, Support.New_pll_err,
    Support.New_low_f_err⟩

/-- Witness for C9 at concrete out-of-range inputs. -/
theorem C9_out_of_range_rejection_witness :
    Support.New 9000000 0 1000000 ≠
      Except.ok ⟨0, 0, 0, 0, 0, 0, 0, 0, 0, 0, 0⟩ ∧
    Support.New 25000000 0 300000000 ≠
      Except.ok ⟨0, 0, 0, 0, 0, 0, 0, 0, 0, 0, 0⟩ ∧
    Support.New 25000000 500000000 7000000 ≠
      Except.ok ⟨0, 0, 0, 0, 0, 0, 0, 0, 0, 0, 0⟩ ∧
    Support.New 25000000 0 2288 ≠
      Except.ok ⟨0, 0, 0, 0, 0, 0, 0, 0, 0, 0, 0⟩ :=
  ⟨C9_out_of_range_rejection.1 9000000 0 1000000 (Or.inl (by norm_num)) _,
    C9_out_of_range_rejection.2.1 25000000 0 300000000 (by norm_num) _,
    C9_out_of_range_rejection.2.2.1 25000000 500000000 7000000 (by norm_num)
      (Or.inl (by norm_num)) (by norm_num) _,
    C9_out_of_range_rejection.2.2.2 2288 (by norm_num) (by norm_num) _⟩

end GoWspr

